import Mathlib

/-!
Shallow embedding of `src/grafana_export.py` (Grafana → Terraform exporter).

The program's pure logic is translated function-by-function:

* `tf_resource_id`      — the `uid.replace('-', '_')` derivation (lines 156, 163, 173, 180);
* `skip_set_of`         — the skip-set parse (line 149);
* `get_all_folders_run` — `get_all_folders` / `fetch_folder_and_children` (lines 17-96),
  with the recursion written as an explicit work-stack (one processed folder per
  step) and a step-fuel counter; `outOfFuel = true` marks a run that would not
  have terminated within the given fuel, and we prove the canonical fuel always
  suffices;
* `get_all_dashboards`  — lines 98-144, over an abstract HTTP backend, with the
  exception flow (`raise_for_status` / `except`) made explicit;
* `select_dashboards`   — the `__main__` filter, lines 207-211;
* `generate_terraform`  — lines 146-195, producing the emitted resource blocks
  and the side-effect file writes structurally; `crashed = true` records the
  `AttributeError` raised by `None.replace('-', '_')` at line 180.

HTTP transport itself is out of scope (per the spec); each backend is a finite
response table, a miss modelling an HTTP 404 error response.
-/

/-- JSON-like values, for dashboard documents. -/
inductive JVal where
  | null
  | bool (b : Bool)
  | num (n : Int)
  | str (s : String)
  | arr (elems : List JVal)
  | obj (fields : List (String × JVal))

/-- A Python dict with string keys: an ordered association list (insertion order). -/
abbrev PyDict := List (String × JVal)

/-- Python `k in d`. -/
def containsKey (d : PyDict) (k : String) : Bool := d.any (fun kv => kv.1 = k)

/-- Python `d[k] = v`: replace the value at an existing key, else append the pair. -/
def pySet (d : PyDict) (k : String) (v : JVal) : PyDict :=
  if containsKey d k then d.map (fun kv => if kv.1 = k then (k, v) else kv)
  else d ++ [(k, v)]

/-- Python `del d[k]`. -/
def pyDel (d : PyDict) (k : String) : PyDict := d.filter (fun kv => kv.1 ≠ k)

/-- Python `d.get(k)` / `d[k]` as an option. -/
def pyLookup (d : PyDict) (k : String) : Option JVal := d.lookup k

/-- Truthiness of an optional Python string: `None` and `''` are falsy. -/
def pyTruthy : Option String → Bool
  | none => false
  | some s => s ≠ ""

/-- `uid.replace('-', '_')` (lines 156, 163, 173, 180); a single-character
pattern, so it is the characterwise substitution. -/
def tf_resource_id (uid : String) : String :=
  ⟨uid.data.map (fun c => if c = '-' then '_' else c)⟩

/-- Python `s.strip()`: drop leading and trailing whitespace. -/
def py_strip (s : String) : String :=
  ⟨((s.data.dropWhile Char.isWhitespace).reverse.dropWhile Char.isWhitespace).reverse⟩

/-- Python `s.split(',')`, characterwise. -/
def py_split_comma (s : String) : List String :=
  (s.data.splitOn ',').map (fun cs => (⟨cs⟩ : String))

/-- Line 149: `set(r.strip() for r in (args.skip_resources or '').split(','))
if args.skip_resources else set()`.  The set is kept as the list of its
elements; only membership is ever used. -/
def skip_set_of (skip_resources : Option String) : List String :=
  if pyTruthy skip_resources then (py_split_comma (skip_resources.getD "")).map py_strip
  else []

/-- A folder record as accumulated in `all_folders` (lines 38-42). -/
structure Folder where
  uid : String
  title : String
  parent_uid : Option String
  deriving DecidableEq

/-- A dashboard record as accumulated in `all_dashboards` (lines 132-137). -/
structure Dashboard where
  uid : String
  title : String
  folder_uid : Option String
  json : PyDict

/-! ### Resource generator (`generate_terraform`, lines 146-195)

The generated `tf_config` text is a concatenation of resource blocks; the
embedding returns the list of blocks in emission order together with the list
of dashboard JSON files written, which is what the claims are about.  Each
block below renders to exactly one `resource "..." "..." { ... }` stanza. -/

/-- One `resource "grafana_folder" "<name>"` block (lines 157-167).  `parent`
is the `parent_folder_uid` attribute: present exactly when line 162's
truthiness test passes, in which case the block also carries
`depends_on = [grafana_folder.<tf_resource_id parent>]` (line 165). -/
structure FolderBlock where
  name : String
  title : String
  uid : String
  parent : Option String
  deriving DecidableEq

/-- One `resource "grafana_dashboard" "<name>"` block (lines 186-193).
`folder_ref` is the folder resource identifier used both in
`folder = grafana_folder.<folder_ref>.uid` and in `depends_on`;
`file` is the sidecar JSON path inlined via `file(...)`. -/
structure DashBlock where
  name : String
  folder_ref : String
  file : String
  deriving DecidableEq

inductive TfBlock where
  | folder (b : FolderBlock)
  | dash (b : DashBlock)
  deriving DecidableEq

/-- Result of `generate_terraform`: emitted blocks (the `tf_config` content),
dashboard files written (line 183-184 side effect, in order), and whether the
run raised `AttributeError` at line 180 (`crashed`); on a crash the blocks
accumulated so far are discarded by the caller but the files remain on disk. -/
structure GenResult where
  blocks : List TfBlock
  writes : List (String × PyDict)
  crashed : Bool

/-- Lines 155-167, per folder. -/
def folder_block (f : Folder) : FolderBlock :=
  { name := tf_resource_id f.uid
    title := f.title
    uid := f.uid
    parent := if pyTruthy f.parent_uid then f.parent_uid else none }

/-- Line 172: `f"dashboards/{uid}.json"`. -/
def dashboard_file (uid : String) : String := "dashboards/" ++ uid ++ ".json"

/-- Line 173: `f"d_{uid}"`. -/
def dashboard_resource_name (uid : String) : String := "d_" ++ uid

/-- The dashboard loop of lines 170-193.  `none.replace` would raise
`AttributeError` (line 180), which aborts the loop: `crashed := true`. -/
def gen_dash_loop (skip : List String) :
    List Dashboard → List TfBlock → List (String × PyDict) → GenResult
  | [], blocks, writes => ⟨blocks, writes, false⟩
  | d :: ds, blocks, writes =>
    let file := dashboard_file d.uid
    let name := dashboard_resource_name d.uid
    if skip.contains name then
      gen_dash_loop skip ds blocks writes
    else
      match d.folder_uid with
      | none => ⟨blocks, writes, true⟩
      | some fu =>
        gen_dash_loop skip ds
          (blocks ++ [TfBlock.dash ⟨name, tf_resource_id fu, file⟩])
          (writes ++ [(file, d.json)])

/-- `generate_terraform(folders, dashboards)` (lines 146-195), with the
skip-list argument made explicit.  Folder blocks first, from
`sorted(folders, key=lambda x: x['uid'])` (line 155; a stable ascending sort,
embedded as insertion sort), then the dashboard loop. -/
def generate_terraform (folders : List Folder) (dashboards : List Dashboard)
    (skip_resources : Option String) : GenResult :=
  let skip := skip_set_of skip_resources
  let folderBlocks :=
    (List.insertionSort (fun a b : Folder => a.uid ≤ b.uid) folders).map
      (fun f => TfBlock.folder (folder_block f))
  gen_dash_loop skip dashboards folderBlocks []

/-- The folder blocks among the emitted blocks, in order. -/
def GenResult.folderBlocks (r : GenResult) : List FolderBlock :=
  r.blocks.filterMap (fun b => match b with | .folder fb => some fb | .dash _ => none)

/-- The dashboard blocks among the emitted blocks, in order. -/
def GenResult.dashBlocks (r : GenResult) : List DashBlock :=
  r.blocks.filterMap (fun b => match b with | .dash db => some db | .folder _ => none)

/-! ### Selector (`__main__`, lines 207-211) -/

/-- Lines 207-211: keep a dashboard iff its `folder_uid` is in the set of
selected folder uids (`None in <set of strings>` is `False`). -/
def select_dashboards (folders : List Folder) (dashboards : List Dashboard) :
    List Dashboard :=
  dashboards.filter (fun d =>
    match d.folder_uid with
    | some u => (folders.map (fun f => f.uid)).contains u
    | none => false)

/-! ### Folder fetcher (`get_all_folders` / `fetch_folder_and_children`, lines 17-96)

The backing HTTP API is a finite response table.  A uid absent from a table is
an HTTP 404, i.e. an error response (`raise_for_status` raises `HTTPError`),
except for the by-parent listing, where an unknown parent yields an empty
listing. -/

/-- Outcome of one HTTP GET, as seen through `raise_for_status`. -/
inductive ApiResp (α : Type) where
  | ok (val : α)
  | httpError (msg : String)
  | timeout
  deriving DecidableEq

/-- A folder object as returned by the API (`uid`, `title`, `parentUid`). -/
structure FolderRec where
  uid : String
  title : String
  parentUid : Option String
  deriving DecidableEq

/-- The folder-side backing API: `GET /api/folders` (top level),
`GET /api/folders/{uid}` (detail) and `GET /api/folders?parentUid={uid}`
(children listing). -/
structure FolderApi where
  topFolders : ApiResp (List FolderRec)
  folderDetail : List (String × ApiResp FolderRec)
  subfolders : List (String × ApiResp (List FolderRec))

/-- Lines 27-31: fetch one folder's detail; an unknown uid is a 404. -/
def detailLookup (api : FolderApi) (uid : String) : ApiResp FolderRec :=
  (api.folderDetail.lookup uid).getD (ApiResp.httpError "404")

/-- Lines 45-48: fetch the children listing of one folder. -/
def subLookup (api : FolderApi) (uid : String) : ApiResp (List FolderRec) :=
  (api.subfolders.lookup uid).getD (ApiResp.ok [])

/-- Traversal state: `visited` is `processed_uids` (kept as the list of uids in
first-processing order, so it doubles as the processing trace), `acc` is
`all_folders`.  `outOfFuel` is set only when the step budget is exhausted. -/
structure TravSt where
  visited : List String
  acc : List Folder
  outOfFuel : Bool

/-- The recursive `fetch_folder_and_children` (lines 22-57) written with an
explicit work-stack, one processed uid per fuel step; pushing the children on
the front of the stack reproduces the depth-first call order, and the
`processed_uids` membership test at line 23 happens when a uid is popped,
exactly when the corresponding recursive call would run.  Per the source:
the uid is marked processed *before* any fetch (line 26); an `HTTPError` or
`Timeout` on either fetch ends that branch only (lines 54-57); a folder
titled `GrafanaCloud` is dropped and its children are never listed
(lines 33-36); otherwise the folder is appended to `all_folders` (lines
38-42) and its children are pushed (lines 51-52). -/
def fetch_folder_and_children (api : FolderApi) : Nat → List String → TravSt → TravSt
  | 0, _, st => { st with outOfFuel := true }
  | _ + 1, [], st => st
  | fuel + 1, uid :: rest, st =>
    if uid ∈ st.visited then
      fetch_folder_and_children api fuel rest st
    else
      let st1 : TravSt := { st with visited := st.visited ++ [uid] }
      match detailLookup api uid with
      | ApiResp.httpError _ => fetch_folder_and_children api fuel rest st1
      | ApiResp.timeout => fetch_folder_and_children api fuel rest st1
      | ApiResp.ok folder =>
        if folder.title = "GrafanaCloud" then
          fetch_folder_and_children api fuel rest st1
        else
          let st2 : TravSt :=
            { st1 with acc := st1.acc ++ [⟨folder.uid, folder.title, folder.parentUid⟩] }
          match subLookup api uid with
          | ApiResp.httpError _ => fetch_folder_and_children api fuel rest st2
          | ApiResp.timeout => fetch_folder_and_children api fuel rest st2
          | ApiResp.ok subs =>
            fetch_folder_and_children api fuel (subs.map (fun s => s.uid) ++ rest) st2

/-- Lines 70-84: the traversal roots.  With no (or an empty) `--folder-names`
every top-level folder is a root, in listing order; otherwise each requested
name is resolved through `folder_map` — a dict comprehension keyed by title,
so the *last* listed folder with that title wins — and unmatched names are
skipped with a warning. -/
def rootsOf (tops : List FolderRec) (folder_names : Option (List String)) : List String :=
  match folder_names with
  | none => tops.map (fun f => f.uid)
  | some names =>
    if names.isEmpty then tops.map (fun f => f.uid)
    else names.filterMap (fun n =>
      ((tops.reverse).find? (fun f => f.title = n)).map (fun f => f.uid))

/-- Weight of one children-listing response, for the step budget. -/
def respLen : ApiResp (List FolderRec) → Nat
  | ApiResp.ok l => l.length
  | ApiResp.httpError _ => 0
  | ApiResp.timeout => 0

/-- A step budget sufficient for any traversal over `api` (proved below):
one step per root plus one per child ever listed, plus one. -/
def canonFuel (api : FolderApi) (roots : List String) : Nat :=
  roots.length + (api.subfolders.map (fun e => respLen e.2)).sum + 1

/-- `get_all_folders()` (lines 17-96), returning the full final traversal
state.  A failure of the top-level listing (lines 86-94) or an empty instance
(lines 66-68) returns with `all_folders` empty. -/
def get_all_folders_run (api : FolderApi) (folder_names : Option (List String)) : TravSt :=
  match api.topFolders with
  | ApiResp.httpError _ => ⟨[], [], false⟩
  | ApiResp.timeout => ⟨[], [], false⟩
  | ApiResp.ok tops =>
    if tops.isEmpty then ⟨[], [], false⟩
    else
      let roots := rootsOf tops folder_names
      fetch_folder_and_children api (canonFuel api roots) roots ⟨[], [], false⟩

/-- The list `get_all_folders` returns. -/
def get_all_folders (api : FolderApi) (folder_names : Option (List String)) : List Folder :=
  (get_all_folders_run api folder_names).acc

/-! ### Dashboard fetcher (`get_all_dashboards`, lines 98-144) -/

/-- One `/api/search` hit (`uid`, `title`, optional `folderUid`). -/
structure SearchHit where
  uid : String
  title : String
  folderUid : Option String
  deriving DecidableEq

/-- Body of one `/api/dashboards/uid/{uid}` response; the code reads only its
`dashboard` field (line 121). -/
structure DashResp where
  dashboard : PyDict

/-- The dashboard-side backing API: the search call and the by-uid document
fetch; a uid absent from the table is a 404. -/
structure DashApi where
  search : ApiResp (List SearchHit)
  byUid : List (String × ApiResp DashResp)

def byUidLookup (api : DashApi) (uid : String) : ApiResp DashResp :=
  (api.byUid.lookup uid).getD (ApiResp.httpError "404")

/-- Lines 120-130: set `editable = True`, then delete `version`, `id` and
`gnetId` when present. -/
def strip_dashboard_json (j : PyDict) : PyDict :=
  let j := pySet j "editable" (JVal.bool true)
  let j := if containsKey j "version" then pyDel j "version" else j
  let j := if containsKey j "id" then pyDel j "id" else j
  if containsKey j "gnetId" then pyDel j "gnetId" else j

/-- An exception escaping a fetch call (`requests` raises only these here). -/
inductive ApiErr where
  | http (msg : String)
  | timeout
  deriving DecidableEq

/-- Result of the per-dashboard loop of lines 113-137: either it finishes, or
an exception is raised mid-loop; `all_dashboards` is mutated in place, so the
raised case carries the list accumulated so far. -/
inductive DashLoopRes where
  | done (acc : List Dashboard)
  | raised (acc : List Dashboard) (e : ApiErr)

/-- The loop of lines 113-137: for each search hit, fetch the full document
(`raise_for_status` raises on failure, line 117), strip it and append. -/
def fetch_dash_loop (api : DashApi) : List SearchHit → List Dashboard → DashLoopRes
  | [], acc => DashLoopRes.done acc
  | h :: hs, acc =>
    match byUidLookup api h.uid with
    | ApiResp.httpError m => DashLoopRes.raised acc (ApiErr.http m)
    | ApiResp.timeout => DashLoopRes.raised acc ApiErr.timeout
    | ApiResp.ok dd =>
      fetch_dash_loop api hs
        (acc ++ [⟨h.uid, h.title, h.folderUid, strip_dashboard_json dd.dashboard⟩])

/-- `get_all_dashboards()` (lines 98-144).  The whole body sits in one `try`:
a failed search or a failed per-dashboard fetch is caught by the handlers at
lines 139-142, which log and fall through to `return all_dashboards`.  The
`Except` layer records any exception escaping the function; `.error` never
actually occurs (proved below). -/
def get_all_dashboards (api : DashApi) : Except ApiErr (List Dashboard) :=
  match api.search with
  | ApiResp.httpError _ => Except.ok []
  | ApiResp.timeout => Except.ok []
  | ApiResp.ok hits =>
    match fetch_dash_loop api hits [] with
    | DashLoopRes.done acc => Except.ok acc
    | DashLoopRes.raised acc _ => Except.ok acc

/-! ### Derived notions about the folder traversal, used by the theorems -/

/-- The roots actually traversed by `get_all_folders` (lines 59-84): empty when
the top-level listing fails or is empty, else `rootsOf`. -/
def get_roots (api : FolderApi) (folder_names : Option (List String)) : List String :=
  match api.topFolders with
  | ApiResp.ok tops => if tops.isEmpty then [] else rootsOf tops folder_names
  | ApiResp.httpError _ => []
  | ApiResp.timeout => []

/-- The child uids the traversal would push after processing `uid`. -/
def kidsOf (api : FolderApi) (uid : String) : List String :=
  match subLookup api uid with
  | ApiResp.ok subs => subs.map (fun s => s.uid)
  | ApiResp.httpError _ => []
  | ApiResp.timeout => []

/-- Every uid the API can ever mention to the traversal: the top-level listing
plus every children listing. -/
def apiDomain (api : FolderApi) : List String :=
  (match api.topFolders with
   | ApiResp.ok tops => tops.map (fun f => f.uid)
   | ApiResp.httpError _ => []
   | ApiResp.timeout => []) ++
  (api.subfolders.map (fun e =>
    match e.2 with
    | ApiResp.ok l => l.map (fun f => f.uid)
    | ApiResp.httpError _ => []
    | ApiResp.timeout => [])).flatten

/-- Reachability from the traversal roots through children listings, never
stepping through a folder titled `GrafanaCloud` or through a failed fetch:
exactly the uids `fetch_folder_and_children` can ever reach. -/
inductive Reach (api : FolderApi) (roots : List String) : String → Prop where
  | root (u : String) : u ∈ roots → Reach api roots u
  | step (u : String) (f : FolderRec) (subs : List FolderRec) (c : String) :
      Reach api roots u →
      detailLookup api u = ApiResp.ok f →
      f.title ≠ "GrafanaCloud" →
      subLookup api u = ApiResp.ok subs →
      c ∈ subs.map (fun s => s.uid) →
      Reach api roots c

/-- A well-behaved backend: every children listing succeeds, and every uid it
can mention resolves to a folder detail that is not the reserved
`GrafanaCloud` folder. -/
def CleanApi (api : FolderApi) : Prop :=
  (∀ e ∈ api.subfolders, ∃ l, e.2 = ApiResp.ok l) ∧
  (∀ u ∈ apiDomain api, ∃ f, detailLookup api u = ApiResp.ok f ∧ f.title ≠ "GrafanaCloud")

/-- Remaining children-listing weight over a response table: the summed size
of the listings whose parent uid is not yet visited. -/
def pendingWeightL (l : List (String × ApiResp (List FolderRec))) (visited : List String) : Nat :=
  ((l.filter (fun e => !(visited.contains e.1))).map (fun e => respLen e.2)).sum

/-- The termination potential of a traversal configuration: work-stack size
plus the remaining children-listing weight.  It strictly decreases at every
step, which is the visited-set termination argument. -/
def potential (api : FolderApi) (ws : List String) (visited : List String) : Nat :=
  ws.length + pendingWeightL api.subfolders visited

/-! ## Helper lemmas on the Python-dict model -/

theorem lookup_cons (x : String) (a : String × JVal) (t : PyDict) :
    List.lookup x (a :: t) = if x = a.1 then some a.2 else List.lookup x t := by
  rcases a with ⟨k, v⟩
  by_cases h : x = k <;> simp [List.lookup, beq_eq_decide, h]

theorem lookup_none_of_not_containsKey (d : PyDict) (k : String)
    (h : containsKey d k = false) : pyLookup d k = none := by
  simp [containsKey] at h
  simp [pyLookup]
  intro x y hxy hk
  exact h x y hxy hk.symm

theorem pyLookup_pyDel_self (d : PyDict) (k : String) :
    pyLookup (pyDel d k) k = none := by
  induction d with
  | nil => rfl
  | cons a t ih =>
    by_cases h : a.1 = k
    · simpa [pyDel, List.filter, h] using ih
    · simpa [pyDel, pyLookup, List.filter, h, lookup_cons, Ne.symm h] using ih

theorem pyLookup_pyDel_ne (d : PyDict) (k x : String) (h : x ≠ k) :
    pyLookup (pyDel d k) x = pyLookup d x := by
  induction d with
  | nil => rfl
  | cons a t ih =>
    by_cases ha : a.1 = k
    · have hxa : x ≠ a.1 := fun hh => h (hh.trans ha)
      simpa [pyDel, pyLookup, List.filter, ha, lookup_cons, hxa, h] using ih
    · by_cases hxa : x = a.1
      · simp [pyDel, pyLookup, List.filter, ha, lookup_cons, hxa]
      · simpa [pyDel, pyLookup, List.filter, ha, lookup_cons, hxa] using ih

theorem lookup_keymap_self (d : PyDict) (k : String) (v : JVal) :
    List.lookup k (d.map (fun kv => if kv.1 = k then (k, v) else kv)) =
      if d.any (fun kv => kv.1 = k) then some v else List.lookup k d := by
  induction d with
  | nil => rfl
  | cons a t ih =>
    by_cases h : a.1 = k
    · simp [h, lookup_cons]
    · have hd : decide (a.1 = k) = false := by simp [h]
      simp [lookup_cons, Ne.symm h, ih, h]
      rw [hd, Bool.false_or]

theorem lookup_keymap_ne (d : PyDict) (k x : String) (v : JVal) (h : x ≠ k) :
    List.lookup x (d.map (fun kv => if kv.1 = k then (k, v) else kv)) = List.lookup x d := by
  induction d with
  | nil => rfl
  | cons a t ih =>
    by_cases ha : a.1 = k
    · have hxa : x ≠ a.1 := fun hh => h (hh.trans ha)
      simp [ha, lookup_cons, h, hxa, ih]
    · by_cases hxa : x = a.1
      · simp [ha, lookup_cons, hxa]
      · simp [ha, lookup_cons, hxa, ih]

theorem lookup_append_single_self (d : PyDict) (k : String) (v : JVal)
    (h : containsKey d k = false) : List.lookup k (d ++ [(k, v)]) = some v := by
  induction d with
  | nil => simp [lookup_cons]
  | cons a t ih =>
    simp [containsKey] at h
    simp [lookup_cons, Ne.symm h.1]
    exact ih (by simp [containsKey]; exact h.2)

theorem lookup_append_single_ne (d : PyDict) (k x : String) (v : JVal) (h : x ≠ k) :
    List.lookup x (d ++ [(k, v)]) = List.lookup x d := by
  induction d with
  | nil => simp [lookup_cons, h]
  | cons a t ih =>
    by_cases hxa : x = a.1
    · simp [lookup_cons, hxa]
    · simp [lookup_cons, hxa, ih]

theorem pyLookup_pySet_self (d : PyDict) (k : String) (v : JVal) :
    pyLookup (pySet d k v) k = some v := by
  unfold pySet
  by_cases h : containsKey d k
  · have h2 : d.any (fun kv => kv.1 = k) = true := by simpa [containsKey] using h
    simp [h, pyLookup, lookup_keymap_self, h2]
  · simp [h, pyLookup]
    exact lookup_append_single_self d k v (by simpa using h)

theorem pyLookup_pySet_ne (d : PyDict) (k x : String) (v : JVal) (h : x ≠ k) :
    pyLookup (pySet d k v) x = pyLookup d x := by
  unfold pySet
  split
  · exact lookup_keymap_ne d k x v h
  · exact lookup_append_single_ne d k x v h

theorem pyLookup_pyDelIf_self (d : PyDict) (k : String) :
    pyLookup (if containsKey d k then pyDel d k else d) k = none := by
  split
  · exact pyLookup_pyDel_self d k
  · exact lookup_none_of_not_containsKey d k (by simp_all)

theorem pyLookup_pyDelIf_ne (d : PyDict) (k x : String) (h : x ≠ k) :
    pyLookup (if containsKey d k then pyDel d k else d) x = pyLookup d x := by
  split
  · exact pyLookup_pyDel_ne d k x h
  · rfl

/-! ## C1 — resource-identifier derivation -/

theorem replChar_inj (a b : Char) (ha : a ≠ '_') (hb : b ≠ '_')
    (h : (if a = '-' then '_' else a) = (if b = '-' then '_' else b)) : a = b := by
  by_cases h1 : a = '-' <;> by_cases h2 : b = '-'
  · rw [h1, h2]
  · rw [if_pos h1, if_neg h2] at h
    exact absurd h.symm hb
  · rw [if_neg h1, if_pos h2] at h
    exact absurd h ha
  · rwa [if_neg h1, if_neg h2] at h

theorem replList_inj : ∀ (l m : List Char), '_' ∉ l → '_' ∉ m →
    l.map (fun c => if c = '-' then '_' else c) = m.map (fun c => if c = '-' then '_' else c) →
    l = m := by
  intro l
  induction l with
  | nil => intro m _ _ h; cases m with
    | nil => rfl
    | cons b bs => simp at h
  | cons a as ih =>
    intro m hl hm h
    cases m with
    | nil => simp at h
    | cons b bs =>
      simp only [List.map_cons, List.cons.injEq] at h
      simp only [List.mem_cons, not_or] at hl hm
      have hhd := replChar_inj a b (fun hh => hl.1 hh.symm) (fun hh => hm.1 hh.symm) h.1
      have htl := ih bs (fun hh => hl.2 hh) (fun hh => hm.2 hh) h.2
      rw [hhd, htl]

/-- C1, counterexample: `'a-b'` and `'a_b'` are two distinct unique_ids whose
derived resource identifiers coincide, so the hyphen-to-underscore derivation
is not injective as claimed. -/
theorem c1_counterexample :
    tf_resource_id "a-b" = tf_resource_id "a_b" ∧ ("a-b" : String) ≠ "a_b" :=
  ⟨rfl, by decide⟩

/-- C1, amended: the derivation is injective over unique_ids that contain no
underscore character; only a uid already containing `'_'` can collide with a
distinct uid after the substitution. -/
theorem c1_main (s t : String) (hs : '_' ∉ s.data) (ht : '_' ∉ t.data)
    (h : tf_resource_id s = tf_resource_id t) : s = t := by
  have hdata := congrArg String.data h
  exact String.ext (replList_inj s.data t.data hs ht hdata)

theorem c1_witness : ("x-y" : String) = "x-y" :=
  c1_main "x-y" "x-y" (by decide) (by decide) rfl

/-! ## C3 — dashboard-fetch failure handling -/

/-- C3, counterexample: a backend whose only dashboard's full-document fetch
fails with an HTTP error; `get_all_dashboards` nevertheless returns normally
(with the dashboards accumulated before the failure, here none) — no error
propagates out of the fetcher, contrary to the claim. -/
theorem c3_counterexample :
    get_all_dashboards
        ⟨ApiResp.ok [⟨"d1", "X", some "f1"⟩], [("d1", ApiResp.httpError "500")]⟩
      = Except.ok [] ∧
    byUidLookup ⟨ApiResp.ok [⟨"d1", "X", some "f1"⟩], [("d1", ApiResp.httpError "500")]⟩ "d1"
      = ApiResp.httpError "500" :=
  ⟨rfl, rfl⟩

/-- C3, amended: a failure (HTTP error or timeout) fetching one dashboard's
full document is caught inside the fetcher by the handlers at lines 139-142 —
the same ones that guard the bulk search — aborting the remainder of the loop;
`get_all_dashboards` always returns normally, so no such error ever reaches
the orchestrator. -/
theorem c3_main (api : DashApi) : ∃ l, get_all_dashboards api = Except.ok l := by
  cases h : api.search with
  | ok hits =>
    cases h2 : fetch_dash_loop api hits [] with
    | done acc => exact ⟨acc, by simp [get_all_dashboards, h, h2]⟩
    | raised acc e => exact ⟨acc, by simp [get_all_dashboards, h, h2]⟩
  | httpError m => exact ⟨[], by simp [get_all_dashboards, h]⟩
  | timeout => exact ⟨[], by simp [get_all_dashboards, h]⟩

/-! ## C4 — dashboard without a folder in the generator -/

theorem gen_dash_loop_crashed (skip : List String) :
    ∀ (ds : List Dashboard) (blocks : List TfBlock) (writes : List (String × PyDict)),
      (∃ d ∈ ds, d.folder_uid = none ∧ dashboard_resource_name d.uid ∉ skip) →
      (gen_dash_loop skip ds blocks writes).crashed = true := by
  intro ds
  induction ds with
  | nil => rintro _ _ ⟨d, hd, _⟩; simp at hd
  | cons d ds ih =>
    rintro blocks writes ⟨e, he, hnone, hskip⟩
    rw [gen_dash_loop]
    by_cases hc : skip.contains (dashboard_resource_name d.uid)
    · rcases List.mem_cons.mp he with rfl | he'
      · exact absurd (List.mem_of_elem_eq_true hc) hskip
      · simp only [hc, if_true]
        exact ih _ _ ⟨e, he', hnone, hskip⟩
    · simp only [hc, if_false]
      cases hfu : d.folder_uid with
      | none => rfl
      | some fu =>
        rcases List.mem_cons.mp he with rfl | he'
        · rw [hfu] at hnone; exact absurd hnone (by simp)
        · exact ih _ _ ⟨e, he', hnone, hskip⟩

/-- C4, counterexample: on an input holding one dashboard with no `folder_uid`
(and an empty skip set) the generator does not emit any block for it — invalid
reference or otherwise — and writes no file: the run crashes
(`None.replace('-', '_')` raises `AttributeError` at line 180), so no output
is produced at all. -/
theorem c4_counterexample :
    (generate_terraform [] [⟨"d1", "X", none, []⟩] none).crashed = true ∧
    (generate_terraform [] [⟨"d1", "X", none, []⟩] none).dashBlocks = [] ∧
    (generate_terraform [] [⟨"d1", "X", none, []⟩] none).writes = [] :=
  ⟨rfl, rfl, rfl⟩

/-- C4, amended: for a generator input containing a dashboard with no
`folder_uid` that is not in the skip set, the generator — which indeed
performs no defensive check — raises an uncaught `AttributeError` at line 180
(`crashed = true`), aborting generation instead of emitting an invalid folder
reference. -/
theorem c4_main (folders : List Folder) (dashboards : List Dashboard)
    (skip_resources : Option String)
    (h : ∃ d ∈ dashboards, d.folder_uid = none ∧
          dashboard_resource_name d.uid ∉ skip_set_of skip_resources) :
    (generate_terraform folders dashboards skip_resources).crashed = true :=
  gen_dash_loop_crashed _ _ _ _ h

theorem c4_witness : (generate_terraform [] [⟨"d2", "Y", none, []⟩] none).crashed = true :=
  c4_main [] [⟨"d2", "Y", none, []⟩] none
    ⟨⟨"d2", "Y", none, []⟩, by simp, rfl, by simp [skip_set_of, pyTruthy]⟩

/-! ## C5 — the selector -/

/-- C5: the selector is pure and returns exactly the sublist, in input order,
of dashboards whose `folder_uid` is the uid of one of the selected folders;
dashboards with no folder are excluded and the output is no longer than the
input. -/
theorem c5_main (folders : List Folder) (dashboards : List Dashboard) :
    (select_dashboards folders dashboards).Sublist dashboards ∧
    (select_dashboards folders dashboards).length ≤ dashboards.length ∧
    (∀ d, d ∈ select_dashboards folders dashboards ↔
      d ∈ dashboards ∧ ∃ u, d.folder_uid = some u ∧ ∃ f ∈ folders, f.uid = u) ∧
    (∀ d ∈ select_dashboards folders dashboards, d.folder_uid ≠ none) := by
  refine ⟨List.filter_sublist _, (List.filter_sublist _).length_le, ?_, ?_⟩
  · intro d
    rw [select_dashboards, List.mem_filter]
    constructor
    · rintro ⟨hmem, hp⟩
      refine ⟨hmem, ?_⟩
      revert hp
      cases hfu : d.folder_uid with
      | none => intro hp; simp at hp
      | some u =>
        intro hp
        simp only [hfu] at hp
        refine ⟨u, rfl, ?_⟩
        have := List.mem_of_elem_eq_true hp
        rcases List.mem_map.mp this with ⟨f, hf, hfu2⟩
        exact ⟨f, hf, hfu2⟩
    · rintro ⟨hmem, u, hfu, f, hf, hfu2⟩
      refine ⟨hmem, ?_⟩
      simp only [hfu]
      exact List.elem_eq_true_of_mem (List.mem_map.mpr ⟨f, hf, hfu2⟩)
  · intro d hd
    rw [select_dashboards, List.mem_filter] at hd
    cases hfu : d.folder_uid with
    | none => rw [hfu] at hd; simp at hd
    | some u => simp

theorem c5_witness :
    (⟨"d1", "X", some "f1", []⟩ : Dashboard).folder_uid ≠ none :=
  (c5_main [⟨"f1", "A", none⟩] [⟨"d1", "X", some "f1", []⟩, ⟨"d2", "Y", some "g", []⟩]).2.2.2
    ⟨"d1", "X", some "f1", []⟩ (List.mem_cons_self _ _)

/-! ## Helper lemmas on the generator -/

theorem dashboard_file_inj (u v : String) (h : dashboard_file u = dashboard_file v) : u = v := by
  have hd := congrArg String.data h
  simp [dashboard_file, String.data_append] at hd
  exact String.ext hd

theorem gen_dash_loop_folderBlocks (skip : List String) :
    ∀ (ds : List Dashboard) (blocks : List TfBlock) (writes : List (String × PyDict)),
      (gen_dash_loop skip ds blocks writes).folderBlocks =
        blocks.filterMap (fun b => match b with | .folder fb => some fb | .dash _ => none) := by
  intro ds
  induction ds with
  | nil => intro blocks writes; rfl
  | cons d ds ih =>
    intro blocks writes
    rw [gen_dash_loop]
    by_cases hc : skip.contains (dashboard_resource_name d.uid) = true
    · rw [if_pos hc]; exact ih _ _
    · rw [if_neg hc]
      cases d.folder_uid with
      | none => rfl
      | some fu =>
        rw [ih]
        simp [List.filterMap_append]

theorem generate_terraform_folderBlocks (folders : List Folder) (dashboards : List Dashboard)
    (skip_resources : Option String) :
    (generate_terraform folders dashboards skip_resources).folderBlocks =
      (List.insertionSort (fun a b : Folder => a.uid ≤ b.uid) folders).map folder_block := by
  unfold generate_terraform
  rw [gen_dash_loop_folderBlocks, List.filterMap_map]
  exact congrFun (List.filterMap_eq_map folder_block) _

theorem gen_dash_loop_dash_names_skip (skip : List String) (r : String) (hr : r ∈ skip) :
    ∀ (ds : List Dashboard) (blocks : List TfBlock) (writes : List (String × PyDict)),
      (∀ b ∈ blocks.filterMap (fun b => match b with | .dash db => some db | .folder _ => none),
        b.name ≠ r) →
      ∀ b ∈ (gen_dash_loop skip ds blocks writes).dashBlocks, b.name ≠ r := by
  intro ds
  induction ds with
  | nil => intro blocks writes h; exact h
  | cons d ds ih =>
    intro blocks writes h
    rw [gen_dash_loop]
    by_cases hc : skip.contains (dashboard_resource_name d.uid) = true
    · rw [if_pos hc]; exact ih _ _ h
    · rw [if_neg hc]
      cases d.folder_uid with
      | none => exact h
      | some fu =>
        refine ih _ _ ?_
        intro b hb
        rw [List.filterMap_append] at hb
        rcases List.mem_append.mp hb with hb1 | hb2
        · exact h b hb1
        · simp at hb2
          subst hb2
          intro hname
          have h2 : dashboard_resource_name d.uid = r := hname
          rw [h2] at hc
          exact hc (List.elem_eq_true_of_mem hr)

theorem gen_dash_loop_writes_skip (skip : List String) (r : String) (hr : r ∈ skip)
    (u : String) (hu : dashboard_resource_name u = r) :
    ∀ (ds : List Dashboard) (blocks : List TfBlock) (writes : List (String × PyDict)),
      (∀ w ∈ writes, w.1 ≠ dashboard_file u) →
      ∀ w ∈ (gen_dash_loop skip ds blocks writes).writes, w.1 ≠ dashboard_file u := by
  intro ds
  induction ds with
  | nil => intro blocks writes h; exact h
  | cons d ds ih =>
    intro blocks writes h
    rw [gen_dash_loop]
    by_cases hc : skip.contains (dashboard_resource_name d.uid) = true
    · rw [if_pos hc]; exact ih _ _ h
    · rw [if_neg hc]
      cases d.folder_uid with
      | none => exact h
      | some fu =>
        refine ih _ _ ?_
        intro w hw
        rcases List.mem_append.mp hw with hw1 | hw2
        · exact h w hw1
        · simp at hw2
          subst hw2
          intro hfile
          have huid := dashboard_file_inj d.uid u hfile
          rw [huid, hu] at hc
          exact hc (List.elem_eq_true_of_mem hr)

theorem gen_dash_loop_dash_names_sublist (skip : List String) :
    ∀ (ds : List Dashboard) (blocks : List TfBlock) (writes : List (String × PyDict)),
      ((gen_dash_loop skip ds blocks writes).dashBlocks.map (fun b => b.name)).Sublist
        ((blocks.filterMap
            (fun b => match b with | .dash db => some db | .folder _ => none)).map
              (fun b => b.name) ++
          ds.map (fun d => dashboard_resource_name d.uid)) := by
  intro ds
  induction ds with
  | nil =>
    intro blocks writes
    simp [gen_dash_loop, GenResult.dashBlocks]
  | cons d ds ih =>
    intro blocks writes
    rw [gen_dash_loop]
    by_cases hc : skip.contains (dashboard_resource_name d.uid) = true
    · rw [if_pos hc]
      refine (ih _ _).trans ?_
      exact List.Sublist.append (List.Sublist.refl _) (List.sublist_cons_self _ _)
    · rw [if_neg hc]
      cases d.folder_uid with
      | none =>
        exact (List.sublist_append_left _ _).trans
          (List.Sublist.append (List.Sublist.refl _) (List.nil_sublist _))
      | some fu =>
        refine (ih _ _).trans ?_
        rw [List.filterMap_append]
        simp

theorem gen_dash_loop_dash_names_exact (skip : List String) :
    ∀ (ds : List Dashboard) (blocks : List TfBlock) (writes : List (String × PyDict)),
      (gen_dash_loop skip ds blocks writes).crashed = false →
      (gen_dash_loop skip ds blocks writes).dashBlocks.map (fun b => b.name) =
        (blocks.filterMap
            (fun b => match b with | .dash db => some db | .folder _ => none)).map
              (fun b => b.name) ++
          (ds.filter (fun d => !skip.contains (dashboard_resource_name d.uid))).map
            (fun d => dashboard_resource_name d.uid) := by
  intro ds
  induction ds with
  | nil => intro blocks writes _; simp [gen_dash_loop, GenResult.dashBlocks]
  | cons d ds ih =>
    intro blocks writes hcr
    rw [gen_dash_loop] at hcr ⊢
    by_cases hc : skip.contains (dashboard_resource_name d.uid) = true
    · rw [if_pos hc] at hcr ⊢
      rw [ih _ _ hcr, List.filter_cons, if_neg (by rw [hc]; decide)]
    · rw [if_neg hc] at hcr ⊢
      have hcb : skip.contains (dashboard_resource_name d.uid) = false := by
        simpa using hc
      cases hfu : d.folder_uid with
      | none => rw [hfu] at hcr; simp at hcr
      | some fu =>
        rw [hfu] at hcr
        show List.map (fun b => b.name)
            (gen_dash_loop skip ds
              (blocks ++ [TfBlock.dash ⟨dashboard_resource_name d.uid, tf_resource_id fu,
                dashboard_file d.uid⟩])
              (writes ++ [(dashboard_file d.uid, d.json)])).dashBlocks = _
        rw [ih _ _ hcr, List.filterMap_append, List.filter_cons, if_pos (by rw [hcb]; decide)]
        simp

/-! ## C2 — parent dependency emission -/

/-- C2, counterexample: one folder whose `parent_uid` is `"x"` while no folder
with uid `"x"` is in the exported set; the generator still emits the parent
reference and the ordering dependency on `grafana_folder.x` (the block's
`parent` field is `some "x"`), so an emitted dependency references a folder
absent from the exported set and the dependency is not omitted. -/
theorem c2_counterexample :
    (generate_terraform [⟨"f1", "Team", some "x"⟩] [] none).folderBlocks
      = [⟨"f1", "Team", "f1", some "x"⟩] ∧
    ∀ f ∈ [(⟨"f1", "Team", some "x"⟩ : Folder)], f.uid ≠ "x" :=
  ⟨rfl, by decide⟩

/-- C2, amended: the generator emits the parent reference and dependency
whenever `parent_uid` is present and non-empty, with no membership check; the
claimed invariant — no emitted dependency references a folder absent from the
exported set — holds exactly when the input folder list is parent-closed
(every present non-empty parent uid belongs to some folder of the list). -/
theorem c2_main (folders : List Folder) (dashboards : List Dashboard)
    (skip_resources : Option String)
    (hclosed : ∀ f ∈ folders, ∀ p, f.parent_uid = some p → p ≠ "" →
        ∃ g ∈ folders, g.uid = p) :
    ∀ b ∈ (generate_terraform folders dashboards skip_resources).folderBlocks,
      ∀ p, b.parent = some p → ∃ g ∈ folders, g.uid = p := by
  intro b hb p hp
  rw [generate_terraform_folderBlocks] at hb
  rcases List.mem_map.mp hb with ⟨f, hf, rfl⟩
  have hf2 : f ∈ folders := (List.perm_insertionSort _ _).mem_iff.mp hf
  simp only [folder_block] at hp
  by_cases ht : pyTruthy f.parent_uid = true
  · rw [if_pos ht] at hp
    have hne : p ≠ "" := by
      rw [hp] at ht
      simpa [pyTruthy] using ht
    exact hclosed f hf2 p hp hne
  · rw [if_neg ht] at hp
    exact absurd hp (by simp)

theorem c2_witness :
    ∃ g ∈ [(⟨"f2", "B", some "f2"⟩ : Folder)], g.uid = "f2" :=
  c2_main [⟨"f2", "B", some "f2"⟩] [] none
    (by
      intro f hf p hp hne
      rcases List.mem_singleton.mp hf with rfl
      cases hp
      exact ⟨⟨"f2", "B", some "f2"⟩, List.mem_singleton.mpr rfl, rfl⟩)
    (folder_block ⟨"f2", "B", some "f2"⟩)
    (List.mem_singleton.mpr rfl)
    "f2" rfl

/-! ## C6 — the skip set -/

/-- C6: for every resource identifier in the skip set, the generated artifact
contains no dashboard block with that name, no JSON file is written for any
dashboard carrying that identifier, and the skip set never affects the folder
blocks. -/
theorem c6_main (folders : List Folder) (dashboards : List Dashboard)
    (skip_resources : Option String) (r : String) (hr : r ∈ skip_set_of skip_resources) :
    (∀ b ∈ (generate_terraform folders dashboards skip_resources).dashBlocks, b.name ≠ r) ∧
    (∀ d ∈ dashboards, dashboard_resource_name d.uid = r →
      ∀ w ∈ (generate_terraform folders dashboards skip_resources).writes,
        w.1 ≠ dashboard_file d.uid) ∧
    (∀ skip2 : Option String,
      (generate_terraform folders dashboards skip_resources).folderBlocks =
        (generate_terraform folders dashboards skip2).folderBlocks) := by
  refine ⟨?_, ?_, ?_⟩
  · refine gen_dash_loop_dash_names_skip _ _ hr dashboards _ [] ?_
    intro b hb
    rw [List.filterMap_map] at hb
    simp at hb
  · intro d hd hname
    refine gen_dash_loop_writes_skip _ _ hr _ hname dashboards _ [] ?_
    intro w hw
    simp at hw
  · intro skip2
    rw [generate_terraform_folderBlocks, generate_terraform_folderBlocks]

theorem c6_witness :
    (generate_terraform [] [⟨"abc123", "X", some "f1", []⟩] (some "d_abc123")).folderBlocks =
      (generate_terraform [] [⟨"abc123", "X", some "f1", []⟩] none).folderBlocks :=
  (c6_main [] [⟨"abc123", "X", some "f1", []⟩] (some "d_abc123") "d_abc123"
    (show "d_abc123" ∈ ["d_abc123"] from List.mem_singleton.mpr rfl)).2.2 none

theorem filterMap_dash_of_folder_map (l : List Folder) :
    (l.map (fun f => TfBlock.folder (folder_block f))).filterMap
      (fun b => match b with | .dash db => some db | .folder _ => none) = [] := by
  induction l with
  | nil => rfl
  | cons f t ih => simp [ih]

/-! ## C7 — emission order and block contents -/

/-- C7: folder blocks come out in ascending uid order and are exactly one
`folder_block` per input folder (a permutation of the input's image); a folder
block carries the parent reference and ordering dependency exactly when the
folder has a parent, i.e. a present non-empty `parent_uid` (the line 162
truthiness test); dashboard block names always form an order-preserving
sublist of the post-selection input's resource names, and when the run does
not crash they are exactly the non-skipped input names in input order. -/
theorem c7_main (folders : List Folder) (dashboards : List Dashboard)
    (skip_resources : Option String) :
    ((generate_terraform folders dashboards skip_resources).folderBlocks.Pairwise
      (fun a b => a.uid ≤ b.uid)) ∧
    ((generate_terraform folders dashboards skip_resources).folderBlocks.Perm
      (folders.map folder_block)) ∧
    (∀ f : Folder, (folder_block f).title = f.title ∧ (folder_block f).uid = f.uid ∧
      ((folder_block f).parent ≠ none ↔ pyTruthy f.parent_uid = true) ∧
      (∀ p, (folder_block f).parent = some p → f.parent_uid = some p)) ∧
    (((generate_terraform folders dashboards skip_resources).dashBlocks.map
        (fun b => b.name)).Sublist
      (dashboards.map (fun d => dashboard_resource_name d.uid))) ∧
    ((generate_terraform folders dashboards skip_resources).crashed = false →
      (generate_terraform folders dashboards skip_resources).dashBlocks.map (fun b => b.name) =
        (dashboards.filter (fun d =>
            !(skip_set_of skip_resources).contains (dashboard_resource_name d.uid))).map
          (fun d => dashboard_resource_name d.uid)) := by
  refine ⟨?_, ?_, ?_, ?_, ?_⟩
  · rw [generate_terraform_folderBlocks]
    rw [List.pairwise_map]
    have hs := @List.sorted_insertionSort Folder (fun a b : Folder => a.uid ≤ b.uid) _
      ⟨fun a b => le_total a.uid b.uid⟩ ⟨fun _ _ _ hab hbc => le_trans hab hbc⟩ folders
    exact hs
  · rw [generate_terraform_folderBlocks]
    exact (List.perm_insertionSort _ _).map folder_block
  · intro f
    refine ⟨rfl, rfl, ?_, ?_⟩
    · simp only [folder_block]
      by_cases ht : pyTruthy f.parent_uid = true
      · rw [if_pos ht]
        simp only [ht, iff_true]
        cases hfu : f.parent_uid with
        | none => rw [hfu] at ht; simp [pyTruthy] at ht
        | some q => simp
      · rw [if_neg ht]
        simp [ht]
    · intro p hp
      simp only [folder_block] at hp
      by_cases ht : pyTruthy f.parent_uid = true
      · rwa [if_pos ht] at hp
      · rw [if_neg ht] at hp
        exact absurd hp (by simp)
  · have h := gen_dash_loop_dash_names_sublist (skip_set_of skip_resources) dashboards
      ((List.insertionSort (fun a b : Folder => a.uid ≤ b.uid) folders).map
        (fun f => TfBlock.folder (folder_block f))) []
    rw [filterMap_dash_of_folder_map] at h
    exact h
  · intro hcr
    have h := gen_dash_loop_dash_names_exact (skip_set_of skip_resources) dashboards
      ((List.insertionSort (fun a b : Folder => a.uid ≤ b.uid) folders).map
        (fun f => TfBlock.folder (folder_block f))) [] hcr
    rw [filterMap_dash_of_folder_map] at h
    exact h

theorem c7_witness :
    (generate_terraform [] [⟨"a", "X", some "f", []⟩] none).dashBlocks.map (fun b => b.name) =
      (([⟨"a", "X", some "f", []⟩] : List Dashboard).filter (fun d =>
          !(skip_set_of none).contains (dashboard_resource_name d.uid))).map
        (fun d => dashboard_resource_name d.uid) :=
  (c7_main [] [⟨"a", "X", some "f", []⟩] none).2.2.2.2 rfl

/-! ## C10 — document stripping -/

theorem strip_version (j : PyDict) : pyLookup (strip_dashboard_json j) "version" = none := by
  simp only [strip_dashboard_json]
  rw [pyLookup_pyDelIf_ne _ _ _ (by decide)]
  rw [pyLookup_pyDelIf_ne _ _ _ (by decide)]
  exact pyLookup_pyDelIf_self _ _

theorem strip_id (j : PyDict) : pyLookup (strip_dashboard_json j) "id" = none := by
  simp only [strip_dashboard_json]
  rw [pyLookup_pyDelIf_ne _ _ _ (by decide)]
  exact pyLookup_pyDelIf_self _ _

theorem strip_gnetId (j : PyDict) : pyLookup (strip_dashboard_json j) "gnetId" = none := by
  simp only [strip_dashboard_json]
  exact pyLookup_pyDelIf_self _ _

theorem strip_editable (j : PyDict) :
    pyLookup (strip_dashboard_json j) "editable" = some (JVal.bool true) := by
  simp only [strip_dashboard_json]
  rw [pyLookup_pyDelIf_ne _ _ _ (by decide)]
  rw [pyLookup_pyDelIf_ne _ _ _ (by decide)]
  rw [pyLookup_pyDelIf_ne _ _ _ (by decide)]
  exact pyLookup_pySet_self _ _ _

theorem strip_other (j : PyDict) (k : String)
    (hk : k ∉ (["version", "id", "gnetId", "editable"] : List String)) :
    pyLookup (strip_dashboard_json j) k = pyLookup j k := by
  simp only [List.mem_cons, not_or] at hk
  simp only [strip_dashboard_json]
  rw [pyLookup_pyDelIf_ne _ _ _ hk.2.2.1]
  rw [pyLookup_pyDelIf_ne _ _ _ hk.2.1]
  rw [pyLookup_pyDelIf_ne _ _ _ hk.1]
  exact pyLookup_pySet_ne _ _ _ _ hk.2.2.2.1

theorem fetch_dash_loop_inv (api : DashApi) (P : Dashboard → Prop)
    (hP : ∀ (h : SearchHit) (dd : DashResp), byUidLookup api h.uid = ApiResp.ok dd →
      P ⟨h.uid, h.title, h.folderUid, strip_dashboard_json dd.dashboard⟩) :
    ∀ (hits : List SearchHit) (acc : List Dashboard), (∀ d ∈ acc, P d) →
      (∀ l, fetch_dash_loop api hits acc = DashLoopRes.done l → ∀ d ∈ l, P d) ∧
      (∀ l e, fetch_dash_loop api hits acc = DashLoopRes.raised l e → ∀ d ∈ l, P d) := by
  intro hits
  induction hits with
  | nil =>
    intro acc hacc
    constructor
    · intro l hl
      rw [fetch_dash_loop] at hl
      cases hl
      exact hacc
    · intro l e hl
      rw [fetch_dash_loop] at hl
      cases hl
  | cons h hs ih =>
    intro acc hacc
    constructor
    · intro l hl
      rw [fetch_dash_loop] at hl
      cases hb : byUidLookup api h.uid with
      | httpError m => rw [hb] at hl; cases hl
      | timeout => rw [hb] at hl; cases hl
      | ok dd =>
        rw [hb] at hl
        refine (ih _ ?_).1 l hl
        intro d hd
        rcases List.mem_append.mp hd with hd1 | hd2
        · exact hacc d hd1
        · rcases List.mem_singleton.mp hd2 with rfl
          exact hP h dd hb
    · intro l e hl
      rw [fetch_dash_loop] at hl
      cases hb : byUidLookup api h.uid with
      | httpError m =>
        rw [hb] at hl
        cases hl
        exact hacc
      | timeout =>
        rw [hb] at hl
        cases hl
        exact hacc
      | ok dd =>
        rw [hb] at hl
        refine (ih _ ?_).2 l e hl
        intro d hd
        rcases List.mem_append.mp hd with hd1 | hd2
        · exact hacc d hd1
        · rcases List.mem_singleton.mp hd2 with rfl
          exact hP h dd hb

/-- C10: every dashboard retained by the fetcher stores a document with the
keys `version`, `id` and `gnetId` absent, `editable` set to `true`, and every
other top-level key bound exactly as in the fetched document. -/
theorem c10_main (api : DashApi) (l : List Dashboard)
    (hok : get_all_dashboards api = Except.ok l) (d : Dashboard) (hd : d ∈ l) :
    pyLookup d.json "version" = none ∧
    pyLookup d.json "id" = none ∧
    pyLookup d.json "gnetId" = none ∧
    pyLookup d.json "editable" = some (JVal.bool true) ∧
    ∃ dd, byUidLookup api d.uid = ApiResp.ok dd ∧
      d.json = strip_dashboard_json dd.dashboard ∧
      ∀ k, k ∉ (["version", "id", "gnetId", "editable"] : List String) →
        pyLookup d.json k = pyLookup dd.dashboard k := by
  have hP : ∃ dd, byUidLookup api d.uid = ApiResp.ok dd ∧
      d.json = strip_dashboard_json dd.dashboard := by
    have hinv := fetch_dash_loop_inv api
      (fun d => ∃ dd, byUidLookup api d.uid = ApiResp.ok dd ∧
        d.json = strip_dashboard_json dd.dashboard)
      (fun h dd hb => ⟨dd, hb, rfl⟩)
    cases hs : api.search with
    | httpError m =>
      rw [get_all_dashboards, hs] at hok
      cases hok
      simp at hd
    | timeout =>
      rw [get_all_dashboards, hs] at hok
      cases hok
      simp at hd
    | ok hits =>
      rw [get_all_dashboards, hs] at hok
      cases hl : fetch_dash_loop api hits [] with
      | done acc =>
        simp only [hl] at hok
        cases hok
        exact (hinv hits [] (by simp)).1 _ hl d hd
      | raised acc e =>
        simp only [hl] at hok
        cases hok
        exact (hinv hits [] (by simp)).2 _ _ hl d hd
  rcases hP with ⟨dd, hb, hjson⟩
  rw [hjson]
  exact ⟨strip_version _, strip_id _, strip_gnetId _, strip_editable _,
    dd, hb, rfl, fun k hk => strip_other _ k hk⟩

theorem c10_witness :
    pyLookup (strip_dashboard_json [("version", JVal.num 3), ("foo", JVal.str "x")]) "version"
      = none :=
  (c10_main
    ⟨ApiResp.ok [⟨"d1", "X", some "f1"⟩],
     [("d1", ApiResp.ok ⟨[("version", JVal.num 3), ("foo", JVal.str "x")]⟩)]⟩
    [⟨"d1", "X", some "f1",
      strip_dashboard_json [("version", JVal.num 3), ("foo", JVal.str "x")]⟩]
    rfl
    ⟨"d1", "X", some "f1",
      strip_dashboard_json [("version", JVal.num 3), ("foo", JVal.str "x")]⟩
    (List.mem_singleton.mpr rfl)).1

/-! ## Helper lemmas on the folder traversal -/

theorem lookup_mem_assoc {α : Type} (l : List (String × α)) (k : String) (r : α)
    (h : l.lookup k = some r) : (k, r) ∈ l := by
  induction l with
  | nil => cases h
  | cons e t ih =>
    rcases e with ⟨k2, r2⟩
    by_cases hk : k = k2
    · subst hk
      simp [List.lookup] at h
      subst h
      exact List.mem_cons_self _ _
    · have hb : (k == k2) = false := by simp [hk]
      simp only [List.lookup, hb] at h
      exact List.mem_cons_of_mem _ (ih h)

theorem ffc_zero (api : FolderApi) (ws : List String) (st : TravSt) :
    fetch_folder_and_children api 0 ws st = { st with outOfFuel := true } := rfl

theorem ffc_nil (api : FolderApi) (fuel : Nat) (st : TravSt) :
    fetch_folder_and_children api (fuel + 1) [] st = st := rfl

theorem ffc_visited (api : FolderApi) (fuel : Nat) (uid : String) (rest : List String)
    (st : TravSt) (hv : uid ∈ st.visited) :
    fetch_folder_and_children api (fuel + 1) (uid :: rest) st =
      fetch_folder_and_children api fuel rest st := by
  simp only [fetch_folder_and_children]
  rw [if_pos hv]

/-- One traversal step on an unvisited uid: either the branch ends (fetch
error, or the `GrafanaCloud` filter) and only `rest` remains, or the folder is
appended and its children are pushed.  In both cases the uid is marked
processed first (line 26). -/
theorem ffc_step (api : FolderApi) (fuel : Nat) (uid : String) (rest : List String)
    (st : TravSt) (hv : uid ∉ st.visited) :
    (∃ acc2, fetch_folder_and_children api (fuel + 1) (uid :: rest) st =
        fetch_folder_and_children api fuel rest
          ⟨st.visited ++ [uid], acc2, st.outOfFuel⟩ ∧
        (acc2 = st.acc ∨ ∃ f, detailLookup api uid = ApiResp.ok f ∧
          f.title ≠ "GrafanaCloud" ∧ acc2 = st.acc ++ [⟨f.uid, f.title, f.parentUid⟩])) ∨
    (∃ f subs, detailLookup api uid = ApiResp.ok f ∧ f.title ≠ "GrafanaCloud" ∧
        subLookup api uid = ApiResp.ok subs ∧
        fetch_folder_and_children api (fuel + 1) (uid :: rest) st =
          fetch_folder_and_children api fuel (subs.map (fun s => s.uid) ++ rest)
            ⟨st.visited ++ [uid], st.acc ++ [⟨f.uid, f.title, f.parentUid⟩],
              st.outOfFuel⟩) := by
  simp only [fetch_folder_and_children]
  rw [if_neg hv]
  split
  · exact Or.inl ⟨st.acc, rfl, Or.inl rfl⟩
  · exact Or.inl ⟨st.acc, rfl, Or.inl rfl⟩
  · next folder heq =>
    split
    · exact Or.inl ⟨st.acc, rfl, Or.inl rfl⟩
    · next hGC =>
      split
      · exact Or.inl ⟨st.acc ++ [⟨folder.uid, folder.title, folder.parentUid⟩], rfl,
          Or.inr ⟨folder, heq, hGC, rfl⟩⟩
      · exact Or.inl ⟨st.acc ++ [⟨folder.uid, folder.title, folder.parentUid⟩], rfl,
          Or.inr ⟨folder, heq, hGC, rfl⟩⟩
      · next subs heq2 =>
        exact Or.inr ⟨folder, subs, heq, hGC, heq2, rfl⟩

theorem ffc_mono (api : FolderApi) :
    ∀ (fuel : Nat) (ws : List String) (st : TravSt),
      st.visited ⊆ (fetch_folder_and_children api fuel ws st).visited := by
  intro fuel
  induction fuel with
  | zero =>
    intro ws st
    rw [ffc_zero]
    exact fun x hx => hx
  | succ fuel ih =>
    intro ws st
    cases ws with
    | nil =>
      rw [ffc_nil]
      exact fun x hx => hx
    | cons uid rest =>
      by_cases hv : uid ∈ st.visited
      · rw [ffc_visited api fuel uid rest st hv]
        exact ih rest st
      · have hsub : st.visited ⊆ st.visited ++ [uid] := List.subset_append_left _ _
        rcases ffc_step api fuel uid rest st hv with ⟨acc2, heq, _⟩ | ⟨f, subs, _, _, _, heq⟩
        · rw [heq]
          exact hsub.trans (ih rest ⟨st.visited ++ [uid], acc2, st.outOfFuel⟩)
        · rw [heq]
          exact hsub.trans (ih (subs.map (fun s => s.uid) ++ rest)
            ⟨st.visited ++ [uid], st.acc ++ [⟨f.uid, f.title, f.parentUid⟩], st.outOfFuel⟩)

theorem ffc_visit (api : FolderApi) :
    ∀ (fuel : Nat) (ws : List String) (st : TravSt),
      (fetch_folder_and_children api fuel ws st).outOfFuel = false →
      ∀ u ∈ ws, u ∈ (fetch_folder_and_children api fuel ws st).visited := by
  intro fuel
  induction fuel with
  | zero =>
    intro ws st hout
    rw [ffc_zero] at hout
    simp at hout
  | succ fuel ih =>
    intro ws st hout
    cases ws with
    | nil =>
      intro u hu
      exact absurd hu (List.not_mem_nil u)
    | cons uid rest =>
      by_cases hv : uid ∈ st.visited
      · rw [ffc_visited api fuel uid rest st hv] at hout ⊢
        intro u hu
        rcases List.mem_cons.mp hu with rfl | hu2
        · exact ffc_mono api fuel rest st hv
        · exact ih rest st hout u hu2
      · rcases ffc_step api fuel uid rest st hv with ⟨acc2, heq, _⟩ | ⟨f, subs, _, _, _, heq⟩
        · rw [heq] at hout ⊢
          intro u hu
          rcases List.mem_cons.mp hu with rfl | hu2
          · exact ffc_mono api fuel rest _
              (List.mem_append_right _ (List.mem_singleton.mpr rfl))
          · exact ih rest _ hout u hu2
        · rw [heq] at hout ⊢
          intro u hu
          rcases List.mem_cons.mp hu with rfl | hu2
          · exact ffc_mono api fuel _ _
              (List.mem_append_right _ (List.mem_singleton.mpr rfl))
          · exact ih _ _ hout u (List.mem_append_right _ hu2)

theorem ffc_nodup (api : FolderApi) :
    ∀ (fuel : Nat) (ws : List String) (st : TravSt),
      st.visited.Nodup → (fetch_folder_and_children api fuel ws st).visited.Nodup := by
  intro fuel
  induction fuel with
  | zero => intro ws st h; rw [ffc_zero]; exact h
  | succ fuel ih =>
    intro ws st h
    cases ws with
    | nil => rw [ffc_nil]; exact h
    | cons uid rest =>
      by_cases hv : uid ∈ st.visited
      · rw [ffc_visited api fuel uid rest st hv]
        exact ih rest st h
      · have hnd : (st.visited ++ [uid]).Nodup := by
          rw [List.nodup_append]
          refine ⟨h, List.nodup_singleton _, ?_⟩
          intro a ha hmem
          rw [List.mem_singleton] at hmem
          subst hmem
          exact hv ha
        rcases ffc_step api fuel uid rest st hv with ⟨acc2, heq, _⟩ | ⟨f, subs, _, _, _, heq⟩
        · rw [heq]; exact ih rest _ hnd
        · rw [heq]; exact ih _ _ hnd

theorem contains_eq_false_of_not_mem (v : List String) (k : String) (h : k ∉ v) :
    v.contains k = false := by
  cases hb : v.contains k with
  | false => rfl
  | true => exact absurd (List.mem_of_elem_eq_true hb) h

theorem contains_append_singleton_self (v : List String) (uid : String) :
    (v ++ [uid]).contains uid = true :=
  List.elem_eq_true_of_mem (List.mem_append_right _ (List.mem_singleton.mpr rfl))

theorem contains_append_singleton_ne (v : List String) (k uid : String) (hk : k ≠ uid) :
    (v ++ [uid]).contains k = v.contains k := by
  cases hb : v.contains k with
  | true =>
    exact List.elem_eq_true_of_mem (List.mem_append_left _ (List.mem_of_elem_eq_true hb))
  | false =>
    cases hb2 : (v ++ [uid]).contains k with
    | false => rfl
    | true =>
      rcases List.mem_append.mp (List.mem_of_elem_eq_true hb2) with hm | hm
      · have h4 : v.contains k = true := List.elem_eq_true_of_mem hm
        rw [hb] at h4
        exact Bool.noConfusion h4
      · exact absurd (List.mem_singleton.mp hm) hk

theorem pendingWeightL_mono (l : List (String × ApiResp (List FolderRec)))
    (v v' : List String) (hsub : v ⊆ v') :
    pendingWeightL l v' ≤ pendingWeightL l v := by
  induction l with
  | nil => exact Nat.le_refl _
  | cons e t ih =>
    unfold pendingWeightL
    unfold pendingWeightL at ih
    by_cases h' : v'.contains e.1 = true
    · rw [List.filter_cons, if_neg (by rw [h']; decide)]
      by_cases h : v.contains e.1 = true
      · rw [List.filter_cons, if_neg (by rw [h]; decide)]
        exact ih
      · have hf : v.contains e.1 = false := by simpa using h
        rw [List.filter_cons, if_pos (by rw [hf]; decide)]
        simp only [List.map_cons, List.sum_cons]
        exact ih.trans (Nat.le_add_left _ _)
    · have hf' : v'.contains e.1 = false := by simpa using h'
      have hnm : e.1 ∉ v := by
        intro hm
        have h4 : v'.contains e.1 = true := List.elem_eq_true_of_mem (hsub hm)
        rw [hf'] at h4
        exact Bool.noConfusion h4
      have hf : v.contains e.1 = false := contains_eq_false_of_not_mem v e.1 hnm
      rw [List.filter_cons, if_pos (by rw [hf']; decide),
        List.filter_cons, if_pos (by rw [hf]; decide)]
      simp only [List.map_cons, List.sum_cons]
      exact Nat.add_le_add_left ih _

theorem pendingWeightL_step (l : List (String × ApiResp (List FolderRec)))
    (v : List String) (uid : String) (hv : uid ∉ v) :
    respLen ((l.lookup uid).getD (ApiResp.ok [])) + pendingWeightL l (v ++ [uid]) ≤
      pendingWeightL l v := by
  induction l with
  | nil => simp [pendingWeightL, respLen, List.lookup]
  | cons e t ih =>
    rcases e with ⟨k, r⟩
    unfold pendingWeightL
    unfold pendingWeightL at ih
    by_cases hk : uid = k
    · subst hk
      have hlk : List.lookup uid ((uid, r) :: t) = some r := by simp [List.lookup]
      rw [hlk]
      rw [List.filter_cons, if_neg (by
        rw [show ((uid, r).1 : String) = uid from rfl, contains_append_singleton_self v uid]
        decide)]
      rw [List.filter_cons, if_pos (by
        rw [show ((uid, r).1 : String) = uid from rfl, contains_eq_false_of_not_mem v uid hv]
        decide)]
      simp only [Option.getD_some, List.map_cons, List.sum_cons]
      exact Nat.add_le_add_left
        (pendingWeightL_mono t v (v ++ [uid]) (List.subset_append_left _ _)) _
    · have hb : (uid == k) = false := by simp [hk]
      have hlk : List.lookup uid ((k, r) :: t) = t.lookup uid := by
        simp only [List.lookup, hb]
      rw [hlk]
      have hcc : (v ++ [uid]).contains k = v.contains k :=
        contains_append_singleton_ne v k uid (fun hh => hk hh.symm)
      by_cases hck : v.contains k = true
      · rw [List.filter_cons, if_neg (by
            rw [show ((k, r).1 : String) = k from rfl, hcc, hck]; decide),
          List.filter_cons, if_neg (by
            rw [show ((k, r).1 : String) = k from rfl, hck]; decide)]
        exact ih
      · have hcf : v.contains k = false := by simpa using hck
        rw [List.filter_cons, if_pos (by
            rw [show ((k, r).1 : String) = k from rfl, hcc, hcf]; decide),
          List.filter_cons, if_pos (by
            rw [show ((k, r).1 : String) = k from rfl, hcf]; decide)]
        simp only [List.map_cons, List.sum_cons]
        omega

theorem ffc_fuel (api : FolderApi) :
    ∀ (fuel : Nat) (ws : List String) (st : TravSt),
      potential api ws st.visited < fuel → st.outOfFuel = false →
      (fetch_folder_and_children api fuel ws st).outOfFuel = false := by
  intro fuel
  induction fuel with
  | zero => intro ws st hpot _; exact absurd hpot (Nat.not_lt_zero _)
  | succ fuel ih =>
    intro ws st hpot hout
    cases ws with
    | nil => rw [ffc_nil]; exact hout
    | cons uid rest =>
      by_cases hv : uid ∈ st.visited
      · rw [ffc_visited api fuel uid rest st hv]
        refine ih rest st ?_ hout
        unfold potential at hpot ⊢
        simp only [List.length_cons] at hpot
        omega
      · rcases ffc_step api fuel uid rest st hv with
          ⟨acc2, heq, _⟩ | ⟨f, subs, hdet, hGC, hsubs, heq⟩
        · rw [heq]
          refine ih rest _ ?_ hout
          unfold potential at hpot ⊢
          simp only [List.length_cons] at hpot
          show rest.length + pendingWeightL api.subfolders (st.visited ++ [uid]) < fuel
          have hmono := pendingWeightL_mono api.subfolders st.visited (st.visited ++ [uid])
            (List.subset_append_left _ _)
          omega
        · rw [heq]
          refine ih _ _ ?_ hout
          unfold potential at hpot ⊢
          simp only [List.length_cons] at hpot
          show (subs.map (fun s => s.uid) ++ rest).length +
            pendingWeightL api.subfolders (st.visited ++ [uid]) < fuel
          simp only [List.length_append, List.length_map]
          have hstep := pendingWeightL_step api.subfolders st.visited uid hv
          have hlen : respLen ((api.subfolders.lookup uid).getD (ApiResp.ok []))
              = subs.length := by
            have heq2 : subLookup api uid = (api.subfolders.lookup uid).getD (ApiResp.ok []) :=
              rfl
            rw [← heq2, hsubs]
            rfl
          rw [hlen] at hstep
          omega

theorem ffc_reach (api : FolderApi) (roots : List String) :
    ∀ (fuel : Nat) (ws : List String) (st : TravSt),
      (∀ w ∈ ws, Reach api roots w) →
      (∀ v ∈ st.visited, Reach api roots v) →
      (∀ a ∈ st.acc, ∃ u f, Reach api roots u ∧ detailLookup api u = ApiResp.ok f ∧
        f.title ≠ "GrafanaCloud" ∧ a = ⟨f.uid, f.title, f.parentUid⟩) →
      (∀ v ∈ (fetch_folder_and_children api fuel ws st).visited, Reach api roots v) ∧
      (∀ a ∈ (fetch_folder_and_children api fuel ws st).acc, ∃ u f, Reach api roots u ∧
        detailLookup api u = ApiResp.ok f ∧ f.title ≠ "GrafanaCloud" ∧
        a = ⟨f.uid, f.title, f.parentUid⟩) := by
  intro fuel
  induction fuel with
  | zero =>
    intro ws st _ hvis hacc
    rw [ffc_zero]
    exact ⟨hvis, hacc⟩
  | succ fuel ih =>
    intro ws st hws hvis hacc
    cases ws with
    | nil =>
      rw [ffc_nil]
      exact ⟨hvis, hacc⟩
    | cons uid rest =>
      have hws_rest : ∀ w ∈ rest, Reach api roots w :=
        fun w hw => hws w (List.mem_cons_of_mem _ hw)
      have huid : Reach api roots uid := hws uid (List.mem_cons_self _ _)
      by_cases hv : uid ∈ st.visited
      · rw [ffc_visited api fuel uid rest st hv]
        exact ih rest st hws_rest hvis hacc
      · have hvis' : ∀ v ∈ st.visited ++ [uid], Reach api roots v := by
          intro v hv2
          rcases List.mem_append.mp hv2 with hm | hm
          · exact hvis v hm
          · rw [List.mem_singleton.mp hm]; exact huid
        rcases ffc_step api fuel uid rest st hv with
          ⟨acc2, heq, hacc2⟩ | ⟨f, subs, hdet, hGC, hsubs, heq⟩
        · rw [heq]
          refine ih rest _ hws_rest hvis' ?_
          rcases hacc2 with rfl | ⟨f, hdet, hGC, rfl⟩
          · exact hacc
          · intro a ha
            rcases List.mem_append.mp ha with hm | hm
            · exact hacc a hm
            · rw [List.mem_singleton.mp hm]
              exact ⟨uid, f, huid, hdet, hGC, rfl⟩
        · rw [heq]
          refine ih _ _ ?_ hvis' ?_
          · intro w hw
            rcases List.mem_append.mp hw with hm | hm
            · exact Reach.step uid f subs w huid hdet hGC hsubs hm
            · exact hws_rest w hm
          · intro a ha
            rcases List.mem_append.mp ha with hm | hm
            · exact hacc a hm
            · rw [List.mem_singleton.mp hm]
              exact ⟨uid, f, huid, hdet, hGC, rfl⟩

theorem kidsOf_sub_domain (api : FolderApi) (uid : String) :
    kidsOf api uid ⊆ apiDomain api := by
  intro c hc
  unfold kidsOf subLookup at hc
  cases hlk : api.subfolders.lookup uid with
  | none =>
    rw [hlk] at hc
    simp at hc
  | some r =>
    rw [hlk] at hc
    simp only [Option.getD_some] at hc
    cases r with
    | ok l =>
      have hmem := lookup_mem_assoc api.subfolders uid (ApiResp.ok l) hlk
      unfold apiDomain
      refine List.mem_append_right _ ?_
      rw [List.mem_flatten]
      refine ⟨l.map (fun f => f.uid), ?_, by simpa using hc⟩
      exact List.mem_map.mpr ⟨(uid, ApiResp.ok l), hmem, rfl⟩
    | httpError m => simp at hc
    | timeout => simp at hc

theorem rootsOf_sub (tops : List FolderRec) (names : Option (List String)) :
    rootsOf tops names ⊆ tops.map (fun f => f.uid) := by
  cases names with
  | none =>
    simp only [rootsOf]
    exact fun x hx => hx
  | some ns =>
    simp only [rootsOf]
    by_cases hne : ns.isEmpty = true
    · rw [if_pos hne]; exact fun x hx => hx
    · rw [if_neg hne]
      intro x hx
      rcases List.mem_filterMap.mp hx with ⟨n, hn, hmap⟩
      rcases Option.map_eq_some'.mp hmap with ⟨f, hfind, rfl⟩
      have hf : f ∈ tops.reverse := List.mem_of_find?_eq_some hfind
      exact List.mem_map.mpr ⟨f, List.mem_reverse.mp hf, rfl⟩

theorem get_roots_sub_domain (api : FolderApi) (names : Option (List String)) :
    get_roots api names ⊆ apiDomain api := by
  cases htop : api.topFolders with
  | ok tops =>
    simp only [get_roots, apiDomain, htop]
    by_cases hne : tops.isEmpty = true
    · rw [if_pos hne]
      exact fun x hx => absurd hx (List.not_mem_nil x)
    · rw [if_neg hne]
      intro x hx
      exact List.mem_append_left _ (rootsOf_sub tops names hx)
  | httpError m =>
    simp only [get_roots, htop]
    exact fun x hx => absurd hx (List.not_mem_nil x)
  | timeout =>
    simp only [get_roots, htop]
    exact fun x hx => absurd hx (List.not_mem_nil x)

theorem clean_sub (api : FolderApi) (hclean : CleanApi api) (u : String) :
    ∃ l, subLookup api u = ApiResp.ok l := by
  unfold subLookup
  cases hlk : api.subfolders.lookup u with
  | none => exact ⟨[], rfl⟩
  | some r =>
    rcases hclean.1 (u, r) (lookup_mem_assoc _ _ _ hlk) with ⟨l, hl⟩
    exact ⟨l, by rw [Option.getD_some]; exact hl⟩

/-- Under a clean backend, an unvisited uid from the domain always takes the
append-and-push branch. -/
theorem ffc_step_clean (api : FolderApi) (fuel : Nat) (uid : String) (rest : List String)
    (st : TravSt) (hv : uid ∉ st.visited) (f : FolderRec) (subs : List FolderRec)
    (hdet : detailLookup api uid = ApiResp.ok f) (hGC : f.title ≠ "GrafanaCloud")
    (hsubs : subLookup api uid = ApiResp.ok subs) :
    fetch_folder_and_children api (fuel + 1) (uid :: rest) st =
      fetch_folder_and_children api fuel (subs.map (fun s => s.uid) ++ rest)
        ⟨st.visited ++ [uid], st.acc ++ [⟨f.uid, f.title, f.parentUid⟩],
          st.outOfFuel⟩ := by
  simp only [fetch_folder_and_children]
  rw [if_neg hv]
  simp only [hdet, hsubs]
  rw [if_neg hGC]

theorem ffc_closed (api : FolderApi) (hclean : CleanApi api) :
    ∀ (fuel : Nat) (ws : List String) (st : TravSt),
      ws ⊆ apiDomain api →
      st.visited ⊆ apiDomain api →
      (∀ v ∈ st.visited, kidsOf api v ⊆ st.visited ++ ws) →
      (fetch_folder_and_children api fuel ws st).outOfFuel = false →
      ∀ v ∈ (fetch_folder_and_children api fuel ws st).visited,
        kidsOf api v ⊆ (fetch_folder_and_children api fuel ws st).visited := by
  intro fuel
  induction fuel with
  | zero =>
    intro ws st _ _ _ hout
    rw [ffc_zero] at hout
    simp at hout
  | succ fuel ih =>
    intro ws st hwsD hvisD hinv hout
    cases ws with
    | nil =>
      rw [ffc_nil] at hout ⊢
      intro v hvv
      simpa using hinv v hvv
    | cons uid rest =>
      by_cases hv : uid ∈ st.visited
      · rw [ffc_visited api fuel uid rest st hv] at hout ⊢
        refine ih rest st (fun x hx => hwsD (List.mem_cons_of_mem _ hx)) hvisD ?_ hout
        intro v hvv c hc
        rcases List.mem_append.mp (hinv v hvv hc) with hm | hm
        · exact List.mem_append_left _ hm
        · rcases List.mem_cons.mp hm with rfl | hm2
          · exact List.mem_append_left _ hv
          · exact List.mem_append_right _ hm2
      · have huidD : uid ∈ apiDomain api := hwsD (List.mem_cons_self _ _)
        rcases hclean.2 uid huidD with ⟨f, hdet, hGC⟩
        rcases clean_sub api hclean uid with ⟨subs, hsubs⟩
        rw [ffc_step_clean api fuel uid rest st hv f subs hdet hGC hsubs] at hout ⊢
        refine ih (subs.map (fun s => s.uid) ++ rest) _ ?_ ?_ ?_ hout
        · intro x hx
          rcases List.mem_append.mp hx with hm | hm
          · refine kidsOf_sub_domain api uid ?_
            unfold kidsOf
            rw [hsubs]
            exact hm
          · exact hwsD (List.mem_cons_of_mem _ hm)
        · intro x hx
          rcases List.mem_append.mp hx with hm | hm
          · exact hvisD hm
          · rw [List.mem_singleton.mp hm]; exact huidD
        · intro v hvv c hc
          rcases List.mem_append.mp hvv with hm | hm
          · rcases List.mem_append.mp (hinv v hm hc) with h2 | h2
            · exact List.mem_append_left _ (List.mem_append_left _ h2)
            · rcases List.mem_cons.mp h2 with rfl | h3
              · exact List.mem_append_left _
                  (List.mem_append_right _ (List.mem_singleton.mpr rfl))
              · exact List.mem_append_right _ (List.mem_append_right _ h3)
          · rw [List.mem_singleton.mp hm] at hc
            refine List.mem_append_right _ (List.mem_append_left _ ?_)
            unfold kidsOf at hc
            rw [hsubs] at hc
            exact hc

theorem get_all_folders_run_eq (api : FolderApi) (names : Option (List String)) :
    get_all_folders_run api names =
      fetch_folder_and_children api (canonFuel api (get_roots api names))
        (get_roots api names) ⟨[], [], false⟩ := by
  cases htop : api.topFolders with
  | httpError m =>
    simp only [get_all_folders_run, get_roots, canonFuel, htop]
    rw [ffc_nil]
  | timeout =>
    simp only [get_all_folders_run, get_roots, canonFuel, htop]
    rw [ffc_nil]
  | ok tops =>
    by_cases hne : tops.isEmpty = true
    · simp only [get_all_folders_run, get_roots, canonFuel, htop]
      rw [if_pos hne, if_pos hne, ffc_nil]
    · simp only [get_all_folders_run, get_roots, canonFuel, htop]
      rw [if_neg hne, if_neg hne]

theorem pendingWeightL_nil (l : List (String × ApiResp (List FolderRec))) :
    pendingWeightL l [] = (l.map (fun e => respLen e.2)).sum := by
  unfold pendingWeightL
  congr 1
  induction l with
  | nil => rfl
  | cons e t ih =>
    rw [List.filter_cons,
      if_pos (show (!([] : List String).contains e.1) = true from rfl), List.map_cons, ih,
      List.map_cons]

/-! ## C8 — the GrafanaCloud exclusion -/

/-- C8: no folder titled `GrafanaCloud` ever appears in the fetcher's output;
every uid the traversal processes is reachable from the roots without ever
stepping through a `GrafanaCloud`-titled folder (its subtree is not
traversed), and every output record comes from such a reachable uid whose
fetched detail is not titled `GrafanaCloud` — so a folder reachable only
through the `GrafanaCloud` folder appears neither in the traversal nor in the
output. -/
theorem c8_main (api : FolderApi) (names : Option (List String)) :
    (∀ f ∈ get_all_folders api names, f.title ≠ "GrafanaCloud") ∧
    (∀ u ∈ (get_all_folders_run api names).visited, Reach api (get_roots api names) u) ∧
    (∀ f ∈ get_all_folders api names, ∃ u g, Reach api (get_roots api names) u ∧
      detailLookup api u = ApiResp.ok g ∧ g.title ≠ "GrafanaCloud" ∧
      f = ⟨g.uid, g.title, g.parentUid⟩) := by
  have hreach := ffc_reach api (get_roots api names)
    (canonFuel api (get_roots api names)) (get_roots api names) ⟨[], [], false⟩
    (fun w hw => Reach.root w hw)
    (by intro v hv; simp at hv)
    (by intro a ha; simp at ha)
  rw [← get_all_folders_run_eq] at hreach
  refine ⟨?_, hreach.1, hreach.2⟩
  intro f hf
  rcases hreach.2 f hf with ⟨u, g, _, _, hGC, rfl⟩
  exact hGC

theorem c8_witness :
    (⟨"r1", "Root", none⟩ : Folder).title ≠ "GrafanaCloud" :=
  (c8_main
    ⟨ApiResp.ok [⟨"r1", "Root", none⟩], [("r1", ApiResp.ok ⟨"r1", "Root", none⟩)],
      [("r1", ApiResp.ok [])]⟩ none).1
    ⟨"r1", "Root", none⟩ (List.mem_singleton.mpr rfl)

/-! ## C9 — termination and at-most-once processing -/

/-- C9: for every backing API response table — duplicate and cyclic parent
references included — the traversal terminates (the canonical step budget is
never exhausted, by the strictly decreasing work-stack-plus-unvisited-weight
potential that the visited-set provides), each folder uid is processed at most
once (the processing order `visited` has no duplicates), and for a clean
backend every reachable folder uid is visited (so, with the at-most-once
part, exactly once). -/
theorem c9_main (api : FolderApi) (names : Option (List String)) :
    (get_all_folders_run api names).outOfFuel = false ∧
    (get_all_folders_run api names).visited.Nodup ∧
    (CleanApi api → ∀ u, Reach api (get_roots api names) u →
      u ∈ (get_all_folders_run api names).visited) := by
  have hout : (get_all_folders_run api names).outOfFuel = false := by
    rw [get_all_folders_run_eq]
    refine ffc_fuel api _ _ _ ?_ rfl
    show potential api (get_roots api names) ([] : List String)
      < canonFuel api (get_roots api names)
    unfold potential canonFuel
    rw [pendingWeightL_nil]
    omega
  refine ⟨hout, ?_, ?_⟩
  · rw [get_all_folders_run_eq]
    exact ffc_nodup api _ _ _ List.nodup_nil
  · intro hclean u hreach
    induction hreach with
    | root w hw =>
      rw [get_all_folders_run_eq] at hout ⊢
      exact ffc_visit api _ _ _ hout w hw
    | step u2 f subs c hu2 hdet hGC hsubs hc ih =>
      have hclosed := ffc_closed api hclean (canonFuel api (get_roots api names))
        (get_roots api names) ⟨[], [], false⟩
        (get_roots_sub_domain api names)
        (by intro x hx; simp at hx)
        (by intro v hv; simp at hv)
        (get_all_folders_run_eq api names ▸ hout)
      rw [get_all_folders_run_eq] at ih ⊢
      have hc2 : c ∈ kidsOf api u2 := by
        unfold kidsOf
        rw [hsubs]
        exact hc
      exact hclosed u2 ih hc2

theorem c9_witness :
    "t1" ∈ (get_all_folders_run
      ⟨ApiResp.ok [⟨"t1", "Top", none⟩], [("t1", ApiResp.ok ⟨"t1", "Top", none⟩)],
        [("t1", ApiResp.ok [])]⟩ none).visited :=
  (c9_main
    ⟨ApiResp.ok [⟨"t1", "Top", none⟩], [("t1", ApiResp.ok ⟨"t1", "Top", none⟩)],
      [("t1", ApiResp.ok [])]⟩ none).2.2
    (by
      constructor
      · intro e he
        rcases List.mem_singleton.mp he with rfl
        exact ⟨[], rfl⟩
      · intro u hu
        have hu2 : u = "t1" := by
          rcases List.mem_append.mp hu with hm | hm
          · exact List.mem_singleton.mp hm
          · simp at hm
        subst hu2
        exact ⟨⟨"t1", "Top", none⟩, rfl, by decide⟩)
    "t1" (Reach.root "t1" (List.mem_singleton.mpr rfl))
